import Mathlib

/-!
Verification of the chemical-formula clipboard utility.

The core of the repository is `clipboard_util.ts`: a fixed element table
`ELEMENTS`, a digit-to-subscript table `SUBSCRIPT_MAP` with the converter
`toSubscript`, the backtracking enumerator `getAllFormulas`, and the
deterministic single-result formatter `formatFormula`.  The UI layer
(`main.ts`) contributes the clipboard/history operation `copyFormula`.

Strings are modelled as `List Char`; the JavaScript regular-expression
character classes `[a-zA-Z]` and `[0-9]` become `isAsciiLetter` and
`isAsciiDigit`, and the single-character `toUpperCase`/`toLowerCase`
methods (which on these ASCII inputs shift by 32 code points) become
`toUpperCase`/`toLowerCase` below.

`getAllFormulas` recurses on positions that skip over digit runs, so the
recursion is not structural on the character list.  To keep every
definition kernel-executable we define it through a fuel parameter
(`getAllFormulasF`), entered with fuel `length + 1`, which provably
suffices; the lemma `getAllFormulas_cons` recovers the source's own
recursion equation with `getAllFormulas` on both sides.  The same scheme
is used for `formatFormula`.
-/

/-- ASCII letter test, modelling the source's regex `[a-zA-Z]`. -/
def isAsciiLetter (c : Char) : Bool :=
  (97 ≤ c.toNat && c.toNat ≤ 122) || (65 ≤ c.toNat && c.toNat ≤ 90)

/-- ASCII digit test, modelling the source's regex `[0-9]`. -/
def isAsciiDigit (c : Char) : Bool :=
  48 ≤ c.toNat && c.toNat ≤ 57

/-- JavaScript `String.prototype.toUpperCase` on a single character,
restricted to its ASCII behaviour (the source only applies it to
characters matched by `[a-zA-Z]`). -/
def toUpperCase (c : Char) : Char :=
  if 97 ≤ c.toNat && c.toNat ≤ 122 then Char.ofNat (c.toNat - 32) else c

/-- JavaScript `String.prototype.toLowerCase` on a single character,
restricted to its ASCII behaviour. -/
def toLowerCase (c : Char) : Char :=
  if 65 ≤ c.toNat && c.toNat ≤ 90 then Char.ofNat (c.toNat + 32) else c

/-- Set of valid chemical elements (`ELEMENTS` in `clipboard_util.ts`);
the JavaScript `Set` is modelled as a list used only for membership. -/
def ELEMENTS : List String :=
  ["Ac", "Ag", "Al", "Am", "Ar", "As", "At", "Au", "B", "Ba", "Be", "Bh", "Bi",
   "Bk", "Br", "C", "Ca", "Cd", "Ce", "Cf", "Cl", "Cm", "Cn", "Co", "Cr", "Cs",
   "Cu", "Db", "Ds", "Dy", "Er", "Es", "Eu", "F", "Fe", "Fl", "Fm", "Fr", "Ga",
   "Gd", "Ge", "H", "He", "Hf", "Hg", "Ho", "Hs", "I", "In", "Ir", "K", "Kr",
   "La", "Li", "Lr", "Lu", "Lv", "Md", "Mg", "Mn", "Mo", "Mt", "N", "Na", "Nb",
   "Nd", "Ne", "Ni", "No", "Np", "O", "Os", "P", "Pa", "Pb", "Pd", "Pm", "Po",
   "Pr", "Pt", "Pu", "Ra", "Rb", "Re", "Rf", "Rg", "Rh", "Rn", "Ru", "S", "Sb",
   "Sc", "Se", "Sg", "Si", "Sm", "Sn", "Sr", "Ta", "Tb", "Tc", "Te", "Th", "Ti",
   "Tl", "Tm", "U", "V", "W", "Xe", "Y", "Yb", "Zn", "Zr"]

/-- Map of digits to subscript unicode characters (`SUBSCRIPT_MAP`);
the JavaScript record lookup `SUBSCRIPT_MAP[c]` (which yields `undefined`
on a missing key) is modelled as an `Option Char`. -/
def SUBSCRIPT_MAP (c : Char) : Option Char :=
  match c with
  | '0' => some '₀'
  | '1' => some '₁'
  | '2' => some '₂'
  | '3' => some '₃'
  | '4' => some '₄'
  | '5' => some '₅'
  | '6' => some '₆'
  | '7' => some '₇'
  | '8' => some '₈'
  | '9' => some '₉'
  | _ => none

/-- Convert a number string to subscript characters (`toSubscript`):
`numStr.split('').map((c) => SUBSCRIPT_MAP[c] || c).join('')`. -/
def toSubscript (numStr : List Char) : List Char :=
  numStr.map fun c => (SUBSCRIPT_MAP c).getD c

/-- The digit-collection loop shared by `getAllFormulas` and
`formatFormula` (`while (... formula[digitIndex].match(/[0-9]/)) ...`):
split a string into its leading ASCII-digit run and the remainder. -/
def spanDigits : List Char → List Char × List Char
  | [] => ([], [])
  | c :: rest =>
    if isAsciiDigit c then
      (c :: (spanDigits rest).1, (spanDigits rest).2)
    else
      ([], c :: rest)

/-- Fuel-indexed form of `getAllFormulas` from `clipboard_util.ts`.  The
source recurses on an index that can skip a whole digit run, so the
recursion is not structural; `fuel` strictly exceeding the remaining
length (established by `getAllFormulasF_congr`) makes every branch
reachable exactly as in the source.  Branch structure mirrors the
source: at an alphabetic character, first the 2-letter element branch
(guarded by a second alphabetic character and table membership), then
the unconditional 1-letter branch; otherwise literal passthrough. -/
def getAllFormulasF : Nat → List Char → List (List Char)
  | 0, _ => []
  | _ + 1, [] => [[]]
  | fuel + 1, c :: rest =>
    if isAsciiLetter c then
      let twoRes : List (List Char) :=
        match rest with
        | d :: rest2 =>
          if isAsciiLetter d &&
              ELEMENTS.contains (String.mk [toUpperCase c, toLowerCase d]) then
            let p := spanDigits rest2
            (getAllFormulasF fuel p.2).map
              fun r => toUpperCase c :: toLowerCase d :: (toSubscript p.1 ++ r)
          else []
        | [] => []
      let p := spanDigits rest
      let oneRes :=
        (getAllFormulasF fuel p.2).map
          fun r => toUpperCase c :: (toSubscript p.1 ++ r)
      twoRes ++ oneRes
    else
      (getAllFormulasF fuel rest).map fun r => c :: r

/-- `getAllFormulas` from `clipboard_util.ts`, at the default starting
index 0: all possible chemical formula interpretations of the input. -/
def getAllFormulas (formula : List Char) : List (List Char) :=
  getAllFormulasF (formula.length + 1) formula

/-- String-level wrapper for `getAllFormulas` (the exported interface the
spec calls `enumerate`). -/
def enumerate (s : String) : List String :=
  (getAllFormulas s.data).map fun l => String.mk l

/-- Fuel-indexed form of `formatFormula` from the sibling module: the
`while` loop over the input becomes recursion on the remaining suffix.
At each alphabetic position it deterministically takes the 2-letter
element match when the canonicalized pair is in `ELEMENTS`, otherwise
the 1-letter fallback, then collects digits; non-alphabetic characters
pass through. -/
def formatFormulaF : Nat → List Char → List Char
  | 0, _ => []
  | _ + 1, [] => []
  | fuel + 1, c :: rest =>
    if isAsciiLetter c then
      match rest with
      | d :: rest2 =>
        if isAsciiLetter d &&
            ELEMENTS.contains (String.mk [toUpperCase c, toLowerCase d]) then
          let p := spanDigits rest2
          toUpperCase c :: toLowerCase d :: (toSubscript p.1 ++ formatFormulaF fuel p.2)
        else
          let p := spanDigits rest
          toUpperCase c :: (toSubscript p.1 ++ formatFormulaF fuel p.2)
      | [] => [toUpperCase c]
    else
      c :: formatFormulaF fuel rest

/-- `formatFormula`: the single best-guess formatter. -/
def formatFormula (formula : List Char) : List Char :=
  formatFormulaF (formula.length + 1) formula

/-- History entry of `main.ts`: pair of original query and formatted
formula. -/
structure HistoryEntry where
  original : String
  formatted : String
deriving DecidableEq

/-- `copyFormula` from `main.ts`, with the outcome of the asynchronous
`navigator.clipboard.writeText` call made explicit as `writeOk`.  On
success the entry is `unshift`ed and the oldest entry `pop`ped when the
length exceeds 5; on failure (the `catch` branch) the history is
untouched.  The returned `Bool` is the feedback shown to the user
(`true` for the success message, `false` for the error message). -/
def copyFormula (writeOk : Bool) (history : List HistoryEntry)
    (original formatted : String) : List HistoryEntry × Bool :=
  if writeOk then
    let h1 := { original := original, formatted := formatted } :: history
    let h2 := if h1.length > 5 then h1.dropLast else h1
    (h2, true)
  else
    (history, false)

/-! ### Character-level lemmas -/

theorem charToNat_ofNat {n : Nat} (h : n < 55296) : (Char.ofNat n).toNat = n := by
  rw [Char.ofNat, dif_pos (Or.inl h)]
  rfl

theorem char_eq_of_toNat_eq {c d : Char} (h : c.toNat = d.toNat) : c = d :=
  Char.eq_of_val_eq (UInt32.eq_of_toBitVec_eq (BitVec.eq_of_toNat_eq h))

theorem isAsciiLetter_iff {c : Char} :
    isAsciiLetter c = true ↔
      (97 ≤ c.toNat ∧ c.toNat ≤ 122) ∨ (65 ≤ c.toNat ∧ c.toNat ≤ 90) := by
  simp [isAsciiLetter]

theorem isAsciiDigit_iff {c : Char} :
    isAsciiDigit c = true ↔ 48 ≤ c.toNat ∧ c.toNat ≤ 57 := by
  simp [isAsciiDigit]

theorem toNat_toUpperCase (c : Char) :
    (toUpperCase c).toNat =
      if 97 ≤ c.toNat ∧ c.toNat ≤ 122 then c.toNat - 32 else c.toNat := by
  unfold toUpperCase
  split <;> rename_i h <;>
    simp only [Bool.and_eq_true, decide_eq_true_eq] at h
  · rw [if_pos h, charToNat_ofNat (by omega)]
  · rw [if_neg h]

theorem toNat_toLowerCase (c : Char) :
    (toLowerCase c).toNat =
      if 65 ≤ c.toNat ∧ c.toNat ≤ 90 then c.toNat + 32 else c.toNat := by
  unfold toLowerCase
  split <;> rename_i h <;>
    simp only [Bool.and_eq_true, decide_eq_true_eq] at h
  · rw [if_pos h, charToNat_ofNat (by omega)]
  · rw [if_neg h]

theorem not_digit_of_letter {c : Char} (h : isAsciiLetter c = true) :
    isAsciiDigit c = false := by
  rw [isAsciiLetter_iff] at h
  rw [Bool.eq_false_iff, Ne, isAsciiDigit_iff]
  omega

theorem isAsciiLetter_toUpperCase (c : Char) :
    isAsciiLetter (toUpperCase c) = isAsciiLetter c := by
  rw [Bool.eq_iff_iff, isAsciiLetter_iff, isAsciiLetter_iff]
  simp only [toNat_toUpperCase]
  split <;> omega

theorem isAsciiLetter_toLowerCase (c : Char) :
    isAsciiLetter (toLowerCase c) = isAsciiLetter c := by
  rw [Bool.eq_iff_iff, isAsciiLetter_iff, isAsciiLetter_iff]
  simp only [toNat_toLowerCase]
  split <;> omega

theorem toUpperCase_eq_self {c : Char} (h : isAsciiLetter c = false) :
    toUpperCase c = c := by
  rw [Bool.eq_false_iff, Ne, isAsciiLetter_iff] at h
  apply char_eq_of_toNat_eq
  rw [toNat_toUpperCase]
  split <;> omega

theorem toLowerCase_eq_self {c : Char} (h : isAsciiLetter c = false) :
    toLowerCase c = c := by
  rw [Bool.eq_false_iff, Ne, isAsciiLetter_iff] at h
  apply char_eq_of_toNat_eq
  rw [toNat_toLowerCase]
  split <;> omega

theorem toUpperCase_toUpperCase (c : Char) :
    toUpperCase (toUpperCase c) = toUpperCase c := by
  apply char_eq_of_toNat_eq
  simp only [toNat_toUpperCase]
  split_ifs <;> omega

theorem toLowerCase_toUpperCase (c : Char) :
    toLowerCase (toUpperCase c) = toLowerCase c := by
  apply char_eq_of_toNat_eq
  simp only [toNat_toLowerCase, toNat_toUpperCase]
  split_ifs <;> omega

theorem toUpperCase_toLowerCase (c : Char) :
    toUpperCase (toLowerCase c) = toUpperCase c := by
  apply char_eq_of_toNat_eq
  simp only [toNat_toLowerCase, toNat_toUpperCase]
  split_ifs <;> omega

theorem toLowerCase_toLowerCase (c : Char) :
    toLowerCase (toLowerCase c) = toLowerCase c := by
  apply char_eq_of_toNat_eq
  simp only [toNat_toLowerCase]
  split_ifs <;> omega

theorem toLowerCase_ne_toUpperCase {c : Char} (h : isAsciiLetter c = true) :
    toLowerCase c ≠ toUpperCase c := by
  rw [isAsciiLetter_iff] at h
  intro heq
  have h2 := congrArg Char.toNat heq
  rw [toNat_toLowerCase, toNat_toUpperCase] at h2
  split_ifs at h2 <;> omega

/-! ### `spanDigits` lemmas -/

theorem spanDigits_snd_length : ∀ l : List Char, (spanDigits l).2.length ≤ l.length := by
  intro l
  induction l with
  | nil => simp [spanDigits]
  | cons c rest ih =>
    simp only [spanDigits]
    split
    · simpa using Nat.le_succ_of_le ih
    · simp

theorem spanDigits_cons_of_not_digit {c : Char} {rest : List Char}
    (h : isAsciiDigit c = false) : spanDigits (c :: rest) = ([], c :: rest) := by
  simp [spanDigits, h]

theorem spanDigits_fst_digits : ∀ l : List Char, ∀ c ∈ (spanDigits l).1,
    isAsciiDigit c = true := by
  intro l
  induction l with
  | nil => simp [spanDigits]
  | cons c rest ih =>
    simp only [spanDigits]
    split <;> rename_i h
    · intro x hx
      rcases List.mem_cons.mp hx with rfl | hx
      · exact h
      · exact ih x hx
    · simp

/-! ### Fuel irrelevance and recursion equations -/

theorem getAllFormulasF_congr :
    ∀ f1 f2 : Nat, ∀ l : List Char, l.length < f1 → l.length < f2 →
      getAllFormulasF f1 l = getAllFormulasF f2 l := by
  intro f1
  induction f1 with
  | zero => intro f2 l h1 h2; exact absurd h1 (Nat.not_lt_zero _)
  | succ f ih =>
    intro f2 l h1 h2
    match f2, l with
    | 0, l => exact absurd h2 (Nat.not_lt_zero _)
    | g + 1, [] => rfl
    | g + 1, c :: rest =>
      have hrest1 : rest.length < f := by
        simpa [Nat.succ_lt_succ_iff] using h1
      have hrest2 : rest.length < g := by
        simpa [Nat.succ_lt_succ_iff] using h2
      cases rest with
      | nil =>
        simp only [getAllFormulasF, spanDigits]
        rw [ih g [] hrest1 hrest2]
      | cons d rest2 =>
        have hs1 : (spanDigits (d :: rest2)).2.length < f :=
          Nat.lt_of_le_of_lt (spanDigits_snd_length _) hrest1
        have hs2 : (spanDigits (d :: rest2)).2.length < g :=
          Nat.lt_of_le_of_lt (spanDigits_snd_length _) hrest2
        have ht1 : (spanDigits rest2).2.length < f :=
          Nat.lt_of_le_of_lt (spanDigits_snd_length _) (Nat.lt_of_succ_lt hrest1)
        have ht2 : (spanDigits rest2).2.length < g :=
          Nat.lt_of_le_of_lt (spanDigits_snd_length _) (Nat.lt_of_succ_lt hrest2)
        simp only [getAllFormulasF]
        rw [ih g (spanDigits (d :: rest2)).2 hs1 hs2,
            ih g (spanDigits rest2).2 ht1 ht2,
            ih g (d :: rest2) hrest1 hrest2]

theorem getAllFormulas_eq_F {fuel : Nat} {l : List Char} (h : l.length < fuel) :
    getAllFormulas l = getAllFormulasF fuel l :=
  getAllFormulasF_congr _ _ l (Nat.lt_succ_self _) h

theorem getAllFormulasF_ne_nil :
    ∀ fuel : Nat, ∀ l : List Char, l.length < fuel → getAllFormulasF fuel l ≠ [] := by
  intro fuel
  induction fuel with
  | zero => intro l h; exact absurd h (Nat.not_lt_zero _)
  | succ f ih =>
    intro l h
    match l with
    | [] => simp [getAllFormulasF]
    | c :: rest =>
      have hrest : rest.length < f := by simpa [Nat.succ_lt_succ_iff] using h
      have hspan : (spanDigits rest).2.length < f :=
        Nat.lt_of_le_of_lt (spanDigits_snd_length _) hrest
      simp only [getAllFormulasF]
      split
      · intro hcon
        rw [List.append_eq_nil, List.map_eq_nil_iff] at hcon
        exact ih _ hspan hcon.2
      · intro hcon
        rw [List.map_eq_nil_iff] at hcon
        exact ih _ hrest hcon

theorem getAllFormulas_ne_nil (l : List Char) : getAllFormulas l ≠ [] :=
  getAllFormulasF_ne_nil _ _ (Nat.lt_succ_self _)

theorem formatFormulaF_congr :
    ∀ f1 f2 : Nat, ∀ l : List Char, l.length < f1 → l.length < f2 →
      formatFormulaF f1 l = formatFormulaF f2 l := by
  intro f1
  induction f1 with
  | zero => intro f2 l h1 h2; exact absurd h1 (Nat.not_lt_zero _)
  | succ f ih =>
    intro f2 l h1 h2
    match f2, l with
    | 0, l => exact absurd h2 (Nat.not_lt_zero _)
    | g + 1, [] => rfl
    | g + 1, c :: rest =>
      have hrest1 : rest.length < f := by
        simpa [Nat.succ_lt_succ_iff] using h1
      have hrest2 : rest.length < g := by
        simpa [Nat.succ_lt_succ_iff] using h2
      cases rest with
      | nil =>
        simp only [formatFormulaF]
        rw [ih g [] hrest1 hrest2]
      | cons d rest2 =>
        have hs1 : (spanDigits (d :: rest2)).2.length < f :=
          Nat.lt_of_le_of_lt (spanDigits_snd_length _) hrest1
        have hs2 : (spanDigits (d :: rest2)).2.length < g :=
          Nat.lt_of_le_of_lt (spanDigits_snd_length _) hrest2
        have ht1 : (spanDigits rest2).2.length < f :=
          Nat.lt_of_le_of_lt (spanDigits_snd_length _) (Nat.lt_of_succ_lt hrest1)
        have ht2 : (spanDigits rest2).2.length < g :=
          Nat.lt_of_le_of_lt (spanDigits_snd_length _) (Nat.lt_of_succ_lt hrest2)
        simp only [formatFormulaF]
        rw [ih g (spanDigits (d :: rest2)).2 hs1 hs2,
            ih g (spanDigits rest2).2 ht1 ht2,
            ih g (d :: rest2) hrest1 hrest2]

theorem formatFormula_eq_F {fuel : Nat} {l : List Char} (h : l.length < fuel) :
    formatFormula l = formatFormulaF fuel l :=
  formatFormulaF_congr _ _ l (Nat.lt_succ_self _) h

theorem headI_append_of_ne_nil {α : Type} [Inhabited α] {A : List α} (B : List α)
    (h : A ≠ []) : (A ++ B).headI = A.headI := by
  cases A with
  | nil => exact absurd rfl h
  | cons a A2 => rfl

theorem headI_map_of_ne_nil {α β : Type} [Inhabited α] [Inhabited β]
    (g : α → β) {X : List α} (h : X ≠ []) : (X.map g).headI = g X.headI := by
  cases X with
  | nil => exact absurd rfl h
  | cons x X2 => rfl

theorem headI_mem_of_ne_nil {α : Type} [Inhabited α] {A : List α} (h : A ≠ []) :
    A.headI ∈ A := by
  cases A with
  | nil => exact absurd rfl h
  | cons a A2 => exact List.mem_cons_self _ _

theorem formatFormulaF_eq_headI :
    ∀ fuel : Nat, ∀ l : List Char, l.length < fuel →
      formatFormulaF fuel l = (getAllFormulasF fuel l).headI := by
  intro fuel
  induction fuel with
  | zero => intro l h; exact absurd h (Nat.not_lt_zero _)
  | succ f ih =>
    intro l h
    match l with
    | [] => rfl
    | c :: rest =>
      have hrest : rest.length < f := by simpa [Nat.succ_lt_succ_iff] using h
      cases rest with
      | nil =>
        simp only [formatFormulaF, getAllFormulasF, spanDigits]
        have h0 : getAllFormulasF f [] = [[]] := by
          rw [getAllFormulasF_congr f 1 [] hrest (by simp)]; rfl
        have h1 : formatFormulaF f [] = [] := by
          rw [formatFormulaF_congr f 1 [] hrest (by simp)]; rfl
        rw [h0, h1]
        split <;> simp [toSubscript]
      | cons d rest2 =>
        have hs : (spanDigits (d :: rest2)).2.length < f :=
          Nat.lt_of_le_of_lt (spanDigits_snd_length _) hrest
        have ht : (spanDigits rest2).2.length < f :=
          Nat.lt_of_le_of_lt (spanDigits_snd_length _) (Nat.lt_of_succ_lt hrest)
        simp only [formatFormulaF, getAllFormulasF]
        by_cases hc : isAsciiLetter c = true
        · rw [if_pos hc, if_pos hc]
          by_cases hm : (isAsciiLetter d &&
              ELEMENTS.contains (String.mk [toUpperCase c, toLowerCase d])) = true
          · rw [if_pos hm, if_pos hm]
            rw [headI_append_of_ne_nil _
                  (by simpa [List.map_eq_nil_iff] using getAllFormulasF_ne_nil f _ ht),
                headI_map_of_ne_nil _ (getAllFormulasF_ne_nil f _ ht), ih _ ht]
          · rw [if_neg hm, if_neg hm]
            simp only [List.nil_append]
            rw [headI_map_of_ne_nil _ (getAllFormulasF_ne_nil f _ hs), ih _ hs]
        · rw [if_neg hc, if_neg hc]
          rw [headI_map_of_ne_nil _ (getAllFormulasF_ne_nil f _ hrest), ih _ hrest]

/-! ### Case-insensitivity machinery -/

theorem not_letter_of_digit {c : Char} (h : isAsciiDigit c = true) :
    isAsciiLetter c = false := by
  rw [isAsciiDigit_iff] at h
  rw [Bool.eq_false_iff, Ne, isAsciiLetter_iff]
  omega

theorem spanDigits_map_fst (φ : Char → Char)
    (hdigit : ∀ c, isAsciiDigit (φ c) = isAsciiDigit c)
    (hdigitfix : ∀ c, isAsciiDigit c = true → φ c = c) :
    ∀ l : List Char, (spanDigits (l.map φ)).1 = (spanDigits l).1 := by
  intro l
  induction l with
  | nil => rfl
  | cons c rest ih =>
    simp only [List.map_cons, spanDigits, hdigit c]
    by_cases hd : isAsciiDigit c = true
    · rw [if_pos hd, if_pos hd]
      simp [hdigitfix c hd, ih]
    · rw [if_neg hd, if_neg hd]

theorem spanDigits_map_snd (φ : Char → Char)
    (hdigit : ∀ c, isAsciiDigit (φ c) = isAsciiDigit c) :
    ∀ l : List Char, (spanDigits (l.map φ)).2 = (spanDigits l).2.map φ := by
  intro l
  induction l with
  | nil => rfl
  | cons c rest ih =>
    simp only [List.map_cons, spanDigits, hdigit c]
    by_cases hd : isAsciiDigit c = true
    · rw [if_pos hd, if_pos hd]
      simpa using ih
    · rw [if_neg hd, if_neg hd]
      simp

theorem getAllFormulasF_map_invariant (φ : Char → Char)
    (hletter : ∀ c, isAsciiLetter (φ c) = isAsciiLetter c)
    (hupper : ∀ c, toUpperCase (φ c) = toUpperCase c)
    (hlower : ∀ c, toLowerCase (φ c) = toLowerCase c)
    (hfix : ∀ c, isAsciiLetter c = false → φ c = c) :
    ∀ fuel : Nat, ∀ l : List Char, l.length < fuel →
      getAllFormulasF fuel (l.map φ) = getAllFormulasF fuel l := by
  have hdigit : ∀ c, isAsciiDigit (φ c) = isAsciiDigit c := by
    intro c
    by_cases hl : isAsciiLetter c = true
    · rw [not_digit_of_letter hl, not_digit_of_letter (by rw [hletter c]; exact hl)]
    · rw [hfix c (Bool.eq_false_iff.mpr hl)]
  have hdigitfix : ∀ c, isAsciiDigit c = true → φ c = c := by
    intro c hd
    exact hfix c (not_letter_of_digit hd)
  intro fuel
  induction fuel with
  | zero => intro l h; exact absurd h (Nat.not_lt_zero _)
  | succ f ih =>
    intro l h
    match l with
    | [] => rfl
    | c :: rest =>
      have hrest : rest.length < f := by simpa [Nat.succ_lt_succ_iff] using h
      have hspan : (spanDigits rest).2.length < f :=
        Nat.lt_of_le_of_lt (spanDigits_snd_length _) hrest
      cases rest with
      | nil =>
        simp only [List.map_cons, List.map_nil, getAllFormulasF, spanDigits,
          hletter c, hupper c]
        by_cases hc : isAsciiLetter c = true
        · rw [if_pos hc, if_pos hc]
        · rw [if_neg hc, if_neg hc, hfix c (Bool.eq_false_iff.mpr hc)]
      | cons d rest2 =>
        have ht : (spanDigits rest2).2.length < f :=
          Nat.lt_of_le_of_lt (spanDigits_snd_length _) (Nat.lt_of_succ_lt hrest)
        have e1a : (spanDigits (φ d :: List.map φ rest2)).1 =
            (spanDigits (d :: rest2)).1 := by
          simpa using spanDigits_map_fst φ hdigit hdigitfix (d :: rest2)
        have e1b : (spanDigits (φ d :: List.map φ rest2)).2 =
            (spanDigits (d :: rest2)).2.map φ := by
          simpa using spanDigits_map_snd φ hdigit (d :: rest2)
        have e2a : (spanDigits (List.map φ rest2)).1 = (spanDigits rest2).1 :=
          spanDigits_map_fst φ hdigit hdigitfix rest2
        have e2b : (spanDigits (List.map φ rest2)).2 = (spanDigits rest2).2.map φ :=
          spanDigits_map_snd φ hdigit rest2
        simp only [List.map_cons, getAllFormulasF, hletter c, hletter d,
          hupper c, hlower d, e1a, e1b, e2a, e2b,
          ih _ (Nat.lt_of_le_of_lt (spanDigits_snd_length (d :: rest2)) hrest),
          ih _ ht, ih _ hrest]
        by_cases hc : isAsciiLetter c = true
        · rw [if_pos hc, if_pos hc]
        · have ihdc : getAllFormulasF f (φ d :: List.map φ rest2) =
              getAllFormulasF f (d :: rest2) := by
            simpa using ih _ hrest
          rw [if_neg hc, if_neg hc, hfix c (Bool.eq_false_iff.mpr hc), ihdc]

theorem getAllFormulas_map_toUpperCase (l : List Char) :
    getAllFormulas (l.map toUpperCase) = getAllFormulas l := by
  unfold getAllFormulas
  rw [List.length_map]
  exact getAllFormulasF_map_invariant toUpperCase isAsciiLetter_toUpperCase
    toUpperCase_toUpperCase toLowerCase_toUpperCase
    (fun c h => toUpperCase_eq_self h) _ l (Nat.lt_succ_self _)

theorem getAllFormulas_map_toLowerCase (l : List Char) :
    getAllFormulas (l.map toLowerCase) = getAllFormulas l := by
  unfold getAllFormulas
  rw [List.length_map]
  exact getAllFormulasF_map_invariant toLowerCase isAsciiLetter_toLowerCase
    toUpperCase_toLowerCase toLowerCase_toLowerCase
    (fun c h => toLowerCase_eq_self h) _ l (Nat.lt_succ_self _)

/-! ### All-digit inputs pass through literally -/

theorem getAllFormulasF_all_digits :
    ∀ fuel : Nat, ∀ l : List Char, l.length < fuel →
      (∀ c ∈ l, isAsciiDigit c = true) → getAllFormulasF fuel l = [l] := by
  intro fuel
  induction fuel with
  | zero => intro l h; exact absurd h (Nat.not_lt_zero _)
  | succ f ih =>
    intro l h hdig
    match l with
    | [] => rfl
    | c :: rest =>
      have hrest : rest.length < f := by simpa [Nat.succ_lt_succ_iff] using h
      have hc : isAsciiLetter c = false :=
        not_letter_of_digit (hdig c (List.mem_cons_self _ _))
      simp only [getAllFormulasF]
      rw [if_neg (by rw [hc]; simp)]
      rw [ih rest hrest (fun x hx => hdig x (List.mem_cons_of_mem _ hx))]
      rfl

/-! ### Heads of candidates and distinctness -/

theorem getAllFormulasF_head_upper :
    ∀ fuel : Nat, ∀ c : Char, ∀ rest : List Char, isAsciiLetter c = true →
      ∀ s ∈ getAllFormulasF fuel (c :: rest), ∃ t, s = toUpperCase c :: t := by
  intro fuel c rest hc s hs
  match fuel, rest with
  | 0, rest => simp [getAllFormulasF] at hs
  | f + 1, [] =>
    simp only [getAllFormulasF, if_pos hc, List.nil_append] at hs
    rcases List.mem_map.mp hs with ⟨r, hr, rfl⟩
    exact ⟨_, rfl⟩
  | f + 1, d :: rest2 =>
    simp only [getAllFormulasF, if_pos hc] at hs
    rcases List.mem_append.mp hs with h2 | h1
    · split at h2
      · rcases List.mem_map.mp h2 with ⟨r, hr, rfl⟩
        exact ⟨_, rfl⟩
      · simp at h2
    · rcases List.mem_map.mp h1 with ⟨r, hr, rfl⟩
      exact ⟨_, rfl⟩

theorem cons_prefix_injective (a : Char) (S : List Char) :
    Function.Injective (fun r : List Char => a :: (S ++ r)) := by
  intro x y hxy
  simp only [List.cons.injEq] at hxy
  exact List.append_cancel_left hxy.2

theorem cons2_prefix_injective (a b : Char) (S : List Char) :
    Function.Injective (fun r : List Char => a :: b :: (S ++ r)) := by
  intro x y hxy
  simp only [List.cons.injEq] at hxy
  exact List.append_cancel_left hxy.2.2

theorem cons_injective_chars (a : Char) :
    Function.Injective (fun r : List Char => a :: r) := by
  intro x y hxy
  simpa using hxy

theorem getAllFormulasF_nodup :
    ∀ fuel : Nat, ∀ l : List Char, l.length < fuel →
      (getAllFormulasF fuel l).Nodup := by
  intro fuel
  induction fuel with
  | zero => intro l h; exact absurd h (Nat.not_lt_zero _)
  | succ f ih =>
    intro l h
    match l with
    | [] => simp [getAllFormulasF]
    | c :: rest =>
      have hrest : rest.length < f := by simpa [Nat.succ_lt_succ_iff] using h
      have hspan : (spanDigits rest).2.length < f :=
        Nat.lt_of_le_of_lt (spanDigits_snd_length _) hrest
      by_cases hc : isAsciiLetter c = true
      · cases rest with
        | nil =>
          simp only [getAllFormulasF, if_pos hc, List.nil_append]
          exact (ih _ hspan).map (cons_prefix_injective _ _)
        | cons d rest2 =>
          have ht : (spanDigits rest2).2.length < f :=
            Nat.lt_of_le_of_lt (spanDigits_snd_length _) (Nat.lt_of_succ_lt hrest)
          simp only [getAllFormulasF, if_pos hc]
          by_cases hm : (isAsciiLetter d &&
              ELEMENTS.contains (String.mk [toUpperCase c, toLowerCase d])) = true
          · have hd : isAsciiLetter d = true := (Bool.and_eq_true _ _ |>.mp hm).1
            have hdnd : isAsciiDigit d = false := not_digit_of_letter hd
            rw [if_pos hm, spanDigits_cons_of_not_digit hdnd]
            simp only [toSubscript, List.map_nil, List.nil_append]
            apply List.Nodup.append
            · exact (ih _ ht).map (cons2_prefix_injective _ _ _)
            · exact (ih _ hrest).map (cons_injective_chars _)
            · intro x hx2 hx1
              rcases List.mem_map.mp hx2 with ⟨r, hr, rfl⟩
              rcases List.mem_map.mp hx1 with ⟨r2, hr2, heq⟩
              rcases getAllFormulasF_head_upper f d rest2 hd r2 hr2 with ⟨t, rfl⟩
              simp only [List.cons.injEq] at heq
              exact toLowerCase_ne_toUpperCase hd heq.2.1.symm
          · rw [if_neg hm]
            simp only [List.nil_append]
            exact (ih _ hspan).map (cons_prefix_injective _ _)
      · simp only [getAllFormulasF, if_neg hc]
        exact (ih _ hrest).map (cons_injective_chars _)

/-! ### Subscript table lemmas -/

theorem SUBSCRIPT_MAP_eq_none {c : Char} (h : isAsciiDigit c = false) :
    SUBSCRIPT_MAP c = none := by
  unfold SUBSCRIPT_MAP
  split
  all_goals first
    | rfl
    | exact absurd h (by decide)

theorem SUBSCRIPT_MAP_glyph {c g : Char} (h : SUBSCRIPT_MAP c = some g) :
    SUBSCRIPT_MAP g = none := by
  unfold SUBSCRIPT_MAP at h
  split at h
  all_goals first
    | (injection h with h2; subst h2; decide)
    | exact Option.noConfusion h

theorem subChar_idem (c : Char) :
    (SUBSCRIPT_MAP ((SUBSCRIPT_MAP c).getD c)).getD ((SUBSCRIPT_MAP c).getD c) =
      (SUBSCRIPT_MAP c).getD c := by
  cases h : SUBSCRIPT_MAP c with
  | none => simp [h]
  | some g => simp [h, SUBSCRIPT_MAP_glyph h]

/-! ### Claim theorems -/

/-- C1: for every input string, `enumerate` (that is, `getAllFormulas`
with the default starting index 0) returns a non-empty list and is a
total function (never raises an error); `enumerate ""` returns exactly
`[""]`. -/
theorem enumerate_total_and_ne_nil :
    (∀ s : String, enumerate s ≠ []) ∧ enumerate "" = [""] := by
  refine ⟨fun s => ?_, by decide⟩
  simp only [enumerate]
  intro hcon
  rw [List.map_eq_nil_iff] at hcon
  exact getAllFormulas_ne_nil _ hcon

/-- Witness for C1 at the concrete input `"w"`. -/
theorem enumerate_total_and_ne_nil_witness : enumerate "w" ≠ [] :=
  enumerate_total_and_ne_nil.1 "w"

/-- C2: `enumerate "x"` is exactly `["X"]` — the 1-letter path uppercases
any single letter and applies no element-table membership check, even
though `"X"` is not in `ELEMENTS`. -/
theorem enumerate_invalid_single_letter :
    enumerate "x" = ["X"] ∧ ELEMENTS.contains "X" = false := by decide

/-- C3: an input consisting solely of ASCII digits is returned literally
as the single candidate, with no subscript conversion. -/
theorem enumerate_all_digits (s : String)
    (h : ∀ c ∈ s.data, isAsciiDigit c = true) : enumerate s = [s] := by
  simp only [enumerate]
  rw [show getAllFormulas s.data = [s.data] from
    getAllFormulasF_all_digits _ _ (Nat.lt_succ_self _) h]
  rfl

/-- Witness for C3 at the concrete input `"123"`. -/
theorem enumerate_all_digits_witness :
    (∀ c ∈ ("123" : String).data, isAsciiDigit c = true) ∧
      enumerate "123" = ["123"] :=
  ⟨by decide, enumerate_all_digits "123" (by decide)⟩

/-- C4: `enumerate` is case-insensitive — converting the input to
all-uppercase or all-lowercase (letter characters case-mapped, other
characters untouched, as JavaScript case conversion acts on the ASCII
inputs involved) yields the same candidate list. -/
theorem enumerate_case_insensitive (s : String) :
    enumerate (String.mk (s.data.map toUpperCase)) = enumerate s ∧
      enumerate (String.mk (s.data.map toLowerCase)) = enumerate s := by
  constructor
  · show (getAllFormulas (s.data.map toUpperCase)).map (fun l => String.mk l) =
        (getAllFormulas s.data).map (fun l => String.mk l)
    rw [getAllFormulas_map_toUpperCase]
  · show (getAllFormulas (s.data.map toLowerCase)).map (fun l => String.mk l) =
        (getAllFormulas s.data).map (fun l => String.mk l)
    rw [getAllFormulas_map_toLowerCase]

/-- Witness for C4 at the concrete input `"h2So4"`. -/
theorem enumerate_case_insensitive_witness :
    enumerate (String.mk (("h2So4" : String).data.map toUpperCase)) = enumerate "h2So4" ∧
      enumerate (String.mk (("h2So4" : String).data.map toLowerCase)) = enumerate "h2So4" :=
  enumerate_case_insensitive "h2So4"

/-- C5: `enumerate "co"` contains both `"Co"` (cobalt) and `"CO"`
(carbon + oxygen); `enumerate "h2o"` contains `"H₂O"` and nothing else —
in particular no candidate arising from treating `"h2"` as a 2-letter
element, since a digit ends a 2-letter alphabetic run. -/
theorem enumerate_ambiguity :
    ("Co" ∈ enumerate "co" ∧ "CO" ∈ enumerate "co") ∧
      ("H₂O" ∈ enumerate "h2o" ∧ enumerate "h2o" = ["H₂O"]) := by decide

/-- C6: when both branches apply (two leading letters whose canonical
form is in the element table), the candidates of the 2-letter branch
precede all candidates of the 1-letter branch, and the list is exactly
the depth-first concatenation of the two branches' results over the
recursion on the remainder — no deduplication, sorting or reordering. -/
theorem getAllFormulas_two_letter_order (c d : Char) (rest : List Char)
    (hc : isAsciiLetter c = true) (hd : isAsciiLetter d = true)
    (hm : ELEMENTS.contains (String.mk [toUpperCase c, toLowerCase d]) = true) :
    getAllFormulas (c :: d :: rest) =
      ((getAllFormulas (spanDigits rest).2).map
        (fun r => toUpperCase c :: toLowerCase d :: (toSubscript (spanDigits rest).1 ++ r))) ++
      ((getAllFormulas (d :: rest)).map (fun r => toUpperCase c :: r)) := by
  have h1 : (spanDigits rest).2.length < rest.length + 1 + 1 :=
    Nat.lt_of_le_of_lt (spanDigits_snd_length _) (by omega)
  have h2 : (d :: rest).length < rest.length + 1 + 1 := by simp
  conv_lhs => simp only [getAllFormulas, List.length_cons, getAllFormulasF]
  rw [if_pos hc,
    if_pos (show (isAsciiLetter d &&
      ELEMENTS.contains (String.mk [toUpperCase c, toLowerCase d])) = true by
        rw [hd, hm]; rfl)]
  rw [spanDigits_cons_of_not_digit (not_digit_of_letter hd)]
  dsimp only
  simp only [toSubscript, List.map_nil, List.nil_append]
  rw [← getAllFormulas_eq_F h1, ← getAllFormulas_eq_F h2]

/-- Witness for C6 at the concrete input `"co"` (`'c'`, `'o'`, empty
remainder). -/
theorem getAllFormulas_two_letter_order_witness :
    isAsciiLetter 'c' = true ∧ isAsciiLetter 'o' = true ∧
      ELEMENTS.contains (String.mk [toUpperCase 'c', toLowerCase 'o']) = true ∧
      getAllFormulas ['c', 'o'] =
        ((getAllFormulas (spanDigits []).2).map
          (fun r => toUpperCase 'c' :: toLowerCase 'o' :: (toSubscript (spanDigits []).1 ++ r))) ++
        ((getAllFormulas ['o']).map (fun r => toUpperCase 'c' :: r)) :=
  ⟨by decide, by decide, by decide,
    getAllFormulas_two_letter_order 'c' 'o' [] (by decide) (by decide) (by decide)⟩

/-- C7: `toSubscript` maps each character independently — each ASCII
digit becomes its Unicode subscript glyph and every other character
passes through unchanged; empty input yields empty output; and the
conversion is idempotent, since subscript glyphs are outside the digit
domain of `SUBSCRIPT_MAP`. -/
theorem toSubscript_spec :
    toSubscript [] = [] ∧
    (∀ c : Char, ∀ l : List Char,
        toSubscript (c :: l) = (SUBSCRIPT_MAP c).getD c :: toSubscript l) ∧
    toSubscript ['0', '1', '2', '3', '4', '5', '6', '7', '8', '9'] =
      ['₀', '₁', '₂', '₃', '₄', '₅', '₆', '₇', '₈', '₉'] ∧
    (∀ c : Char, isAsciiDigit c = false → (SUBSCRIPT_MAP c).getD c = c) ∧
    (∀ l : List Char, toSubscript (toSubscript l) = toSubscript l) := by
  refine ⟨rfl, fun c l => rfl, by decide, ?_, ?_⟩
  · intro c h
    rw [SUBSCRIPT_MAP_eq_none h]
    rfl
  · intro l
    induction l with
    | nil => rfl
    | cons c rest ih =>
      simp only [toSubscript, List.map_cons] at ih ⊢
      rw [subChar_idem c]
      exact congrArg _ ih

/-- Witness for C7: the non-digit clause at the concrete character
`'x'`. -/
theorem toSubscript_spec_witness :
    isAsciiDigit 'x' = false ∧ (SUBSCRIPT_MAP 'x').getD 'x' = 'x' :=
  ⟨by decide, toSubscript_spec.2.2.2.1 'x' (by decide)⟩

/-- C8: the deterministic formatter returns exactly the first candidate
of the enumerator, hence is always a member of the candidate list; both
follow the same token-boundary and subscript rules. -/
theorem formatFormula_is_head (l : List Char) :
    formatFormula l = (getAllFormulas l).headI ∧
      formatFormula l ∈ getAllFormulas l := by
  have h : formatFormula l = (getAllFormulas l).headI :=
    formatFormulaF_eq_headI (l.length + 1) l (Nat.lt_succ_self _)
  refine ⟨h, ?_⟩
  rw [h]
  exact headI_mem_of_ne_nil (getAllFormulas_ne_nil l)

/-- Witness for C8 at the concrete input `"caco3"`. -/
theorem formatFormula_is_head_witness :
    formatFormula ("caco3" : String).data =
        (getAllFormulas ("caco3" : String).data).headI ∧
      formatFormula ("caco3" : String).data ∈ getAllFormulas ("caco3" : String).data :=
  formatFormula_is_head ("caco3" : String).data

/-- C9: the copy operation leaves the history unchanged and reports an
error when the clipboard write fails; on success it prepends exactly one
entry, evicting the oldest when the length would exceed 5, so the
history never exceeds 5 entries (most recent first). -/
theorem copyFormula_history (writeOk : Bool) (history : List HistoryEntry)
    (original formatted : String) (hlen : history.length ≤ 5) :
    copyFormula false history original formatted = (history, false) ∧
    copyFormula true history original formatted =
      ({ original := original, formatted := formatted } :: history.take 4, true) ∧
    (copyFormula writeOk history original formatted).1.length ≤ 5 := by
  have hsucc : ∀ e : HistoryEntry,
      (e :: history).length > 5 → (e :: history).dropLast = e :: history.take 4 := by
    intro e hgt
    have hne : history ≠ [] := by
      intro hnil
      rw [hnil] at hgt
      simp at hgt
    rw [List.dropLast_cons_of_ne_nil hne, List.dropLast_eq_take]
    have h5 : history.length = 5 := by
      simp only [List.length_cons] at hgt
      omega
    rw [h5]
  have hmain : copyFormula true history original formatted =
      ({ original := original, formatted := formatted } :: history.take 4, true) := by
    show (if ({ original := original, formatted := formatted } :: history).length > 5
        then ({ original := original, formatted := formatted } :: history).dropLast
        else { original := original, formatted := formatted } :: history, true) = _
    split
    · rename_i hgt
      rw [hsucc _ hgt]
    · rename_i hle
      simp only [List.length_cons, Nat.not_lt] at hle
      rw [List.take_of_length_le (by omega)]
  refine ⟨rfl, hmain, ?_⟩
  cases writeOk with
  | false => exact hlen
  | true =>
    rw [hmain]
    simp only [List.length_cons, List.length_take]
    omega

/-- Witness for C9 at a concrete full history of 5 entries. -/
theorem copyFormula_history_witness :
    ([⟨"a", "A"⟩, ⟨"b", "B"⟩, ⟨"c", "C"⟩, ⟨"d", "D"⟩, ⟨"e", "E"⟩] :
        List HistoryEntry).length ≤ 5 ∧
    (copyFormula false [⟨"a", "A"⟩, ⟨"b", "B"⟩, ⟨"c", "C"⟩, ⟨"d", "D"⟩, ⟨"e", "E"⟩]
        "q" "Q" =
      ([⟨"a", "A"⟩, ⟨"b", "B"⟩, ⟨"c", "C"⟩, ⟨"d", "D"⟩, ⟨"e", "E"⟩], false) ∧
    copyFormula true [⟨"a", "A"⟩, ⟨"b", "B"⟩, ⟨"c", "C"⟩, ⟨"d", "D"⟩, ⟨"e", "E"⟩]
        "q" "Q" =
      ({ original := "q", formatted := "Q" } ::
        ([⟨"a", "A"⟩, ⟨"b", "B"⟩, ⟨"c", "C"⟩, ⟨"d", "D"⟩, ⟨"e", "E"⟩] :
          List HistoryEntry).take 4, true) ∧
    (copyFormula true [⟨"a", "A"⟩, ⟨"b", "B"⟩, ⟨"c", "C"⟩, ⟨"d", "D"⟩, ⟨"e", "E"⟩]
        "q" "Q").1.length ≤ 5) :=
  ⟨by decide,
    copyFormula_history true
      [⟨"a", "A"⟩, ⟨"b", "B"⟩, ⟨"c", "C"⟩, ⟨"d", "D"⟩, ⟨"e", "E"⟩]
      "q" "Q" (by decide)⟩

/-- C10: the candidates returned by `enumerate` are pairwise distinct,
even though the enumerator performs no deduplication: whenever two parse
paths diverge, the 2-letter branch emits a lowercase second letter where
the 1-letter branch emits that letter uppercased. -/
theorem enumerate_nodup (s : String) : (enumerate s).Nodup := by
  apply List.Nodup.map
  · intro a b hab
    exact congrArg String.data hab
  · exact getAllFormulasF_nodup _ _ (Nat.lt_succ_self _)

/-- Witness for C10 at the concrete input `"caco3"` (four candidates,
all distinct). -/
theorem enumerate_nodup_witness : (enumerate "caco3").Nodup :=
  enumerate_nodup "caco3"
